import Mathlib

/-!
Verification of the core game logic of a 2048-style puzzle
(`src/a3.py`, class `Model`), against its natural-language specification.

The board is a list of rows; each cell is `none` (empty) or `some v` for a
tile value `v`.  Python integers are modelled as `Int`; Python list equality
is structural equality of Lean lists.  Functions imported by `a3.py` from
`a3_support` (not part of the sources) are modelled from the specification
and are marked as such in their doc comments.
-/

set_option autoImplicit false

namespace A3

/-- Modelled from the spec: `NUM_ROWS` comes from `a3_support`;
spec §3 fixes the reference configuration at 4×4. -/
def NUM_ROWS : Nat := 4

/-- Modelled from the spec: `NUM_COLS` comes from `a3_support`;
spec §3 fixes the reference configuration at 4×4. -/
def NUM_COLS : Nat := 4

/-- Modelled from the spec: `MAX_UNDOS` comes from `a3_support`;
spec §3 fixes the undo budget at 3 in the reference configuration. -/
def MAX_UNDOS : Nat := 3

/-- A cell: `none` is Python `None` (empty), `some v` a tile of value `v`. -/
abbrev Cell := Option Int

abbrev Row := List Cell

abbrev Board := List Row

/-- Modelled from the spec: `stack_left` comes from `a3_support`.
Spec §4.1 steps 1 and 4: compaction of one row toward index 0 — extract the
non-empty values preserving order, pad on the right with empty cells back to
the original length. -/
def stackRow (row : Row) : Row :=
  let vals := row.filterMap id
  vals.map some ++ List.replicate (row.length - vals.length) none

/-- Modelled from the spec: `stack_left` from `a3_support` compacts every
row of the board toward index 0. -/
def stack_left (board : Board) : Board :=
  board.map stackRow

/-- Modelled from the spec: the per-row merge pass of `combine_left` from
`a3_support`.  Spec §4.1 steps 2 and 3: scan left to right; whenever the
current non-empty value equals the next one, replace the pair by one tile of
double value (leaving a hole where the second tile was), add the doubled
value to the score, and advance past both; a merged tile never merges again
in the same pass.  Returns the new row and the score earned. -/
def combineRow : Row → Row × Int
  | [] => ([], 0)
  | [a] => ([a], 0)
  | a :: b :: rest =>
    match a with
    | some v =>
      if b = some v then
        let p := combineRow rest
        (some (v + v) :: none :: p.1, v + v + p.2)
      else
        let p := combineRow (b :: rest)
        (a :: p.1, p.2)
    | none =>
      let p := combineRow (b :: rest)
      (none :: p.1, p.2)

/-- Modelled from the spec: `combine_left` from `a3_support` merges every
row and returns the new board together with the total score earned
(spec §4.2: per-row scores aggregated by summation). -/
def combine_left (board : Board) : Board × Int :=
  (board.map (fun r => (combineRow r).1),
   (board.map (fun r => (combineRow r).2)).sum)

/-- Modelled from the spec: `reverse` from `a3_support` reverses the element
order of each row (spec §4.2). -/
def reverse (board : Board) : Board :=
  board.map List.reverse

/-- Modelled from the spec: `transpose` from `a3_support` swaps rows and
columns (spec §4.2); for the fixed 4×4 configuration, the cell at
(row, column) of the result is the cell at (column, row) of the input. -/
def transpose (board : Board) : Board :=
  (List.range NUM_COLS).map (fun c => board.map (fun r => r.getD c none))

/-- The game state of `Model` in `src/a3.py`: `_game`, `_previous_state`,
`_score`, `_undos`. -/
structure Model where
  game : Board
  previous_state : List (Board × Int)
  score : Int
  undos : Int
deriving DecidableEq, Repr

/-- `Model.__init__` (src/a3.py lines 11–19). -/
def Model.init : Model :=
  { game := [], previous_state := [], score := 0, undos := (MAX_UNDOS : Int) }

/-- `Model.new_game` (src/a3.py lines 21–31): resets score, undos and the
board; it does not touch `_previous_state`. -/
def Model.new_game (m : Model) : Model :=
  { m with
    score := 0
    undos := (MAX_UNDOS : Int)
    game := List.replicate NUM_ROWS (List.replicate NUM_COLS (none : Cell)) }

/-- `Model.get_score` (src/a3.py lines 33–38). -/
def Model.get_score (m : Model) : Int := m.score

/-- `Model.get_tiles` (src/a3.py lines 40–46). -/
def Model.get_tiles (m : Model) : Board := m.game

/-- `Model.add_tile` (src/a3.py lines 48–64).  The call to `generate_tile`
from `a3_support` is modelled from the spec (§4.4: choose an empty position
and a value at random) as an explicit choice function `gen` returning the
position and the tile value. -/
def Model.add_tile (gen : Board → (Nat × Nat) × Int) (m : Model) : Model :=
  let empty_tiles := m.game.filter (fun row => decide ((none : Cell) ∈ row))
  if empty_tiles.length ≠ 0 then
    let new_tile := gen m.game
    let row := new_tile.1.1
    let column := new_tile.1.2
    let tile_number := new_tile.2
    let new_row := (m.game.getD row []).set column (some tile_number)
    { m with game := m.game.set row new_row }
  else m

/-- `Model.move_left` (src/a3.py lines 66–76). -/
def Model.move_left (m : Model) : Model :=
  let stacked_left := stack_left m.game
  let p := combine_left stacked_left
  { m with game := stack_left p.1, score := m.score + p.2 }

/-- `Model.move_right` (src/a3.py lines 78–87): reverse, move left,
reverse. -/
def Model.move_right (m : Model) : Model :=
  let m1 := { m with game := reverse m.game }
  let m2 := m1.move_left
  { m2 with game := reverse m2.game }

/-- `Model.move_up` (src/a3.py lines 90–99): transpose, move left,
transpose. -/
def Model.move_up (m : Model) : Model :=
  let m1 := { m with game := transpose m.game }
  let m2 := m1.move_left
  { m2 with game := transpose m2.game }

/-- `Model.move_down` (src/a3.py lines 101–110): transpose, move right,
transpose. -/
def Model.move_down (m : Model) : Model :=
  let m1 := { m with game := transpose m.game }
  let m2 := m1.move_right
  { m2 with game := transpose m2.game }

/-- `Model.get_undos_remaining` (src/a3.py lines 112–117). -/
def Model.get_undos_remaining (m : Model) : Int := m.undos

/-- `Model.attempt_move` (src/a3.py lines 119–163).  Four sequential `if`
tests on the move string; then, if the board changed, the pre-move snapshot
is appended to `_previous_state` (popping index 0 first when the history is
at `MAX_UNDOS` entries); returns whether the board changed. -/
def Model.attempt_move (m : Model) (move : String) : Bool × Model :=
  let previous_state := m.game
  let previous_score := m.score
  let m1 := if move = "a" then m.move_left else m
  let m2 := if move = "d" then m1.move_right else m1
  let m3 := if move = "w" then m2.move_up else m2
  let m4 := if move = "s" then m3.move_down else m3
  let m5 :=
    if previous_state ≠ m4.game then
      if m4.previous_state.length ≠ MAX_UNDOS then
        { m4 with previous_state :=
            m4.previous_state ++ [(previous_state, previous_score)] }
      else
        { m4 with previous_state :=
            m4.previous_state.tail ++ [(previous_state, previous_score)] }
    else m4
  (decide (previous_state ≠ m5.game), m5)

/-- `Model.use_undo` (src/a3.py lines 165–182): no-op when fewer than one
undo remains or the history is empty; otherwise pop the entry at index
`len - 1` (the last), restore board and score from it, and decrement the
undo counter. -/
def Model.use_undo (m : Model) : Model :=
  if m.undos < 1 ∨ m.previous_state.length = 0 then m
  else
    match m.previous_state.getLast? with
    | some gs =>
      { m with
        game := gs.1
        score := gs.2
        previous_state := m.previous_state.dropLast
        undos := m.undos - 1 }
    | none => m

/-- `Model.has_won` (src/a3.py lines 184–199): builds the list
`[2048 for row in game if 2048 in row]` and returns whether it is
non-empty. -/
def Model.has_won (m : Model) : Bool :=
  let win_tile :=
    (m.game.filter (fun row => decide (some (2048 : Int) ∈ row))).map
      (fun _ => (2048 : Int))
  if win_tile.length > 0 then true else false

/-- `Model.has_lost` (src/a3.py lines 201–237): when the board has no row
containing an empty cell, run the four moves in sequence on the live state
and compare with the saved board; on a change, restore board and score.
Returns the answer together with the state the object is left in. -/
def Model.has_lost (m : Model) : Bool × Model :=
  let previous_state := m.game
  let previous_score := m.score
  let empty_tiles := m.game.filter (fun row => decide ((none : Cell) ∈ row))
  if empty_tiles.length = 0 then
    let m1 := m.move_left
    let m2 := m1.move_right
    let m3 := m2.move_up
    let m4 := m3.move_down
    if m4.game = previous_state then (true, m4)
    else (false, { m4 with game := previous_state, score := previous_score })
  else (false, m)

/-- The board produced by a left move: the code's
`stack_left`, `combine_left`, `stack_left` pipeline (src/a3.py lines
73–75). -/
def moveLeftB (b : Board) : Board :=
  stack_left (combine_left (stack_left b)).1

/-- The score earned by a left move (src/a3.py line 74). -/
def scoreLeftB (b : Board) : Int :=
  (combine_left (stack_left b)).2

/-- The board produced by a right move: reverse, move left, reverse
(src/a3.py lines 78–87). -/
def moveRightB (b : Board) : Board :=
  reverse (moveLeftB (reverse b))

/-- The score earned by a right move. -/
def scoreRightB (b : Board) : Int :=
  scoreLeftB (reverse b)

/-- The board produced by an up move: transpose, move left, transpose
(src/a3.py lines 90–99). -/
def moveUpB (b : Board) : Board :=
  transpose (moveLeftB (transpose b))

/-- The score earned by an up move. -/
def scoreUpB (b : Board) : Int :=
  scoreLeftB (transpose b)

/-- The board produced by a down move: transpose, move right, transpose
(src/a3.py lines 101–110). -/
def moveDownB (b : Board) : Board :=
  transpose (moveRightB (transpose b))

/-- The score earned by a down move. -/
def scoreDownB (b : Board) : Int :=
  scoreRightB (transpose b)

/-- The board obtained by applying the move named by one of the `wasd`
strings. -/
def moveBoard (mv : String) (b : Board) : Board :=
  if mv = "a" then moveLeftB b
  else if mv = "d" then moveRightB b
  else if mv = "w" then moveUpB b
  else if mv = "s" then moveDownB b
  else b

/-- The score delta of the move named by one of the `wasd` strings. -/
def moveScore (mv : String) (b : Board) : Int :=
  if mv = "a" then scoreLeftB b
  else if mv = "d" then scoreRightB b
  else if mv = "w" then scoreUpB b
  else if mv = "s" then scoreDownB b
  else 0

/-- Spec §4.1 step 2 (this definition follows the specification's words, to
be compared against the code's pipeline): scan left to right; whenever the
current value equals the next, replace them with one tile of double value
and add it to the row score; otherwise keep the current value and advance
by one.  A merged tile is never merged again in the same pass. -/
def mergeScan : List Int → List Int × Int
  | a :: b :: rest =>
    if a = b then
      let p := mergeScan rest
      ((a + b) :: p.1, a + b + p.2)
    else
      let p := mergeScan (b :: rest)
      (a :: p.1, p.2)
  | l => (l, 0)

/-- Spec §4.1, the whole Row Reducer as specified (extract the non-empty
values, merge-scan them, pad on the right with empty cells back to the
original row length); the specification-side definition for the
refinement claim. -/
def reduce_row_spec (row : Row) : Row × Int :=
  let vals := row.filterMap id
  let p := mergeScan vals
  (p.1.map some ++ List.replicate (row.length - p.1.length) none, p.2)

/-- Spec §4.2 Reduce-toward-start: the Row Reducer applied to every row,
per-row scores aggregated by summation. -/
def reduce_spec (board : Board) : Board × Int :=
  (board.map (fun r => (reduce_row_spec r).1),
   (board.map (fun r => (reduce_row_spec r).2)).sum)

/-- Number of non-empty cells in a row. -/
def rowCount (r : Row) : Nat := (r.filterMap id).length

/-- Number of non-empty cells on a board. -/
def boardCount (b : Board) : Nat := (b.map rowCount).sum

/-- A well-formed board: `NUM_ROWS` rows, each of `NUM_COLS` cells
(spec §3: dimensions never change after creation). -/
def WF (b : Board) : Prop :=
  b.length = NUM_ROWS ∧ ∀ r ∈ b, r.length = NUM_COLS

/-- A board with no empty cells. -/
def Full (b : Board) : Prop :=
  ∀ r ∈ b, ∀ c ∈ r, c ≠ none

/-- The last `n` entries of a list. -/
def lastN {α : Type} (n : Nat) (l : List α) : List α :=
  l.drop (l.length - n)

/-- The state after a sequence of `attempt_move` calls. -/
def applyMoves : Model → List String → Model
  | m, [] => m
  | m, mv :: ms => applyMoves (m.attempt_move mv).2 ms

/-- Whether every move of the sequence reports `changed = true` from the
state it is attempted in. -/
def allEffective : Model → List String → Bool
  | _, [] => true
  | m, mv :: ms => (m.attempt_move mv).1 && allEffective (m.attempt_move mv).2 ms

/-- The (board, score) snapshots taken before each move of a sequence. -/
def snaps : Model → List String → List (Board × Int)
  | _, [] => []
  | m, mv :: ms => (m.game, m.score) :: snaps (m.attempt_move mv).2 ms

/-- A full 4×4 board on which no move can merge anything. -/
def altBoard : Board :=
  [[some 2, some 4, some 2, some 4],
   [some 4, some 2, some 4, some 2],
   [some 2, some 4, some 2, some 4],
   [some 4, some 2, some 4, some 2]]

/-- A state on the stuck board, with non-trivial score and history. -/
def mAlt : Model :=
  { game := altBoard
    previous_state := [([[none, none, none, none], [none, none, none, none],
      [none, none, none, none], [none, none, none, some 2]], 3)]
    score := 7
    undos := 3 }

/-- A 4×4 board holding a single tile of value 2 in the top-right
corner. -/
def cornerBoard : Board :=
  [[none, none, none, some 2],
   [none, none, none, none],
   [none, none, none, none],
   [none, none, none, none]]

/-- A fresh-game state holding a single tile. -/
def mCorner : Model :=
  { game := cornerBoard, previous_state := [], score := 0, undos := 3 }

/-- A 4×4 board holding a 4096 tile and no 2048 tile. -/
def board4096 : Board :=
  [[some 4096, none, none, none],
   [none, none, none, none],
   [none, none, none, none],
   [none, none, none, none]]

/-- A state on the 4096 board. -/
def mBig : Model :=
  { game := board4096, previous_state := [], score := 0, undos := 3 }

/-- A mid-game state with a non-empty undo history, used to exhibit the
behaviour of `new_game`. -/
def mHist : Model :=
  { game := cornerBoard
    previous_state := [(altBoard, 5)]
    score := 9
    undos := 1 }

/-! ### Equations for the four move methods -/

theorem move_left_eq (m : Model) :
    m.move_left =
      { m with game := moveLeftB m.game, score := m.score + scoreLeftB m.game } :=
  rfl

theorem move_right_eq (m : Model) :
    m.move_right =
      { m with game := moveRightB m.game, score := m.score + scoreRightB m.game } :=
  rfl

theorem move_up_eq (m : Model) :
    m.move_up =
      { m with game := moveUpB m.game, score := m.score + scoreUpB m.game } :=
  rfl

theorem move_down_eq (m : Model) :
    m.move_down =
      { m with game := moveDownB m.game, score := m.score + scoreDownB m.game } :=
  rfl

/-! ### Counting non-empty cells in a row -/

theorem filterMap_map_some (l : List Int) : (l.map some).filterMap id = l := by
  induction l with
  | nil => rfl
  | cons a l ih => simp [ih]

theorem filterMap_replicate_none (k : Nat) :
    (List.replicate k (none : Cell)).filterMap id = [] := by
  induction k with
  | zero => rfl
  | succ k ih => simp [List.replicate_succ, ih]

theorem map_some_filterMap_full (r : Row) (h : ∀ c ∈ r, c ≠ none) :
    (r.filterMap id).map some = r := by
  induction r with
  | nil => rfl
  | cons a r ih =>
    cases a with
    | none => exact absurd rfl (h none (List.mem_cons_self _ _))
    | some v =>
      have ihr := ih fun c hc => h c (List.mem_cons_of_mem _ hc)
      simp [List.filterMap_cons, ihr]

theorem rowCount_nil : rowCount [] = 0 := rfl

theorem rowCount_cons (c : Cell) (r : Row) :
    rowCount (c :: r) = (if c.isSome then 1 else 0) + rowCount r := by
  cases c <;> simp [rowCount, List.filterMap_cons] <;> omega

theorem rowCount_le_length (r : Row) : rowCount r ≤ r.length :=
  List.length_filterMap_le id r

theorem rowCount_reverse (r : Row) : rowCount r.reverse = rowCount r := by
  simp [rowCount, List.filterMap_reverse]

theorem length_stackRow (r : Row) : (stackRow r).length = r.length := by
  have h := rowCount_le_length r
  simp only [rowCount] at h
  simp [stackRow]
  omega

theorem rowCount_stackRow (r : Row) : rowCount (stackRow r) = rowCount r := by
  simp [rowCount, stackRow, List.filterMap_append, filterMap_map_some,
    filterMap_replicate_none]

theorem rowCount_full (r : Row) (h : ∀ c ∈ r, c ≠ none) :
    rowCount r = r.length := by
  have := congrArg List.length (map_some_filterMap_full r h)
  simpa [rowCount] using this

theorem stackRow_full (r : Row) (h : ∀ c ∈ r, c ≠ none) : stackRow r = r := by
  have hc : rowCount r = r.length := rowCount_full r h
  simp only [rowCount] at hc
  simp [stackRow, hc, map_some_filterMap_full r h]

/-! ### The merge pass: length, count, and the no-change case -/

theorem length_combineRow : ∀ r : Row, (combineRow r).1.length = r.length := by
  intro r
  induction r using combineRow.induct <;> simp_all [combineRow]

theorem rowCount_combineRow_le : ∀ r : Row, rowCount (combineRow r).1 ≤ rowCount r := by
  intro r
  induction r using combineRow.induct <;>
    simp_all [combineRow, rowCount_cons] <;> omega

theorem combineRow_of_count_eq :
    ∀ r : Row, rowCount (combineRow r).1 = rowCount r → combineRow r = (r, 0) := by
  intro r
  induction r using combineRow.induct with
  | case1 => intro _; rfl
  | case2 a => intro _; rfl
  | case3 rest v ih =>
    intro h
    exfalso
    have hle := rowCount_combineRow_le rest
    simp [combineRow, rowCount_cons] at h
    omega
  | case4 b rest v hb ih =>
    intro h
    simp only [combineRow, if_neg hb] at h ⊢
    rw [rowCount_cons, rowCount_cons] at h
    have h2 := ih (by omega)
    simp [h2]
  | case5 b rest ih =>
    intro h
    simp only [combineRow] at h ⊢
    rw [rowCount_cons, rowCount_cons] at h
    have h2 := ih (by omega)
    simp [h2]

/-! ### Board-level counting -/

theorem boardCount_stack (b : Board) : boardCount (stack_left b) = boardCount b := by
  simp only [boardCount, stack_left, List.map_map]
  exact congrArg List.sum (List.map_congr_left fun r _ => rowCount_stackRow r)

theorem boardCount_combine_le (b : Board) :
    boardCount (combine_left b).1 ≤ boardCount b := by
  simp only [boardCount, combine_left, List.map_map]
  exact List.sum_le_sum fun r _ => rowCount_combineRow_le r

theorem boardCount_reverse (b : Board) : boardCount (reverse b) = boardCount b := by
  simp only [boardCount, reverse, List.map_map]
  exact congrArg List.sum (List.map_congr_left fun r _ => rowCount_reverse r)

theorem boardCount_moveLeftB_le (b : Board) :
    boardCount (moveLeftB b) ≤ boardCount b := by
  calc boardCount (moveLeftB b)
      = boardCount (combine_left (stack_left b)).1 := boardCount_stack _
    _ ≤ boardCount (stack_left b) := boardCount_combine_le _
    _ = boardCount b := boardCount_stack b

theorem boardCount_moveRightB_le (b : Board) :
    boardCount (moveRightB b) ≤ boardCount b := by
  calc boardCount (moveRightB b)
      = boardCount (moveLeftB (reverse b)) := boardCount_reverse _
    _ ≤ boardCount (reverse b) := boardCount_moveLeftB_le _
    _ = boardCount b := boardCount_reverse b

/-! ### Well-formedness and fullness are preserved by the transforms -/

theorem reverse_reverse_board (b : Board) : reverse (reverse b) = b := by
  simp [reverse, List.map_map, Function.comp_def]

theorem Full_reverse {b : Board} (h : Full b) : Full (reverse b) := by
  intro r hr c hc
  simp only [reverse, List.mem_map] at hr
  obtain ⟨r0, hr0, rfl⟩ := hr
  exact h r0 hr0 c (List.mem_reverse.mp hc)

theorem WF_stack {b : Board} (h : WF b) : WF (stack_left b) := by
  refine ⟨by simpa [stack_left] using h.1, ?_⟩
  intro r hr
  simp only [stack_left, List.mem_map] at hr
  obtain ⟨r0, hr0, rfl⟩ := hr
  rw [length_stackRow]
  exact h.2 r0 hr0

theorem WF_combine {b : Board} (h : WF b) : WF (combine_left b).1 := by
  refine ⟨by simpa [combine_left] using h.1, ?_⟩
  intro r hr
  simp only [combine_left, List.mem_map] at hr
  obtain ⟨r0, hr0, rfl⟩ := hr
  rw [length_combineRow]
  exact h.2 r0 hr0

theorem WF_reverse {b : Board} (h : WF b) : WF (reverse b) := by
  refine ⟨by simpa [reverse] using h.1, ?_⟩
  intro r hr
  simp only [reverse, List.mem_map] at hr
  obtain ⟨r0, hr0, rfl⟩ := hr
  simpa using h.2 r0 hr0

theorem WF_moveLeftB {b : Board} (h : WF b) : WF (moveLeftB b) :=
  WF_stack (WF_combine (WF_stack h))

theorem WF_moveRightB {b : Board} (h : WF b) : WF (moveRightB b) :=
  WF_reverse (WF_moveLeftB (WF_reverse h))

/-! ### Shape of well-formed boards -/

theorem exists_len4 {α : Type} :
    ∀ l : List α, l.length = 4 → ∃ a b c d, l = [a, b, c, d] := by
  intro l h
  rcases l with _ | ⟨a, l⟩
  · simp at h
  rcases l with _ | ⟨b, l⟩
  · simp at h
  rcases l with _ | ⟨c, l⟩
  · simp at h
  rcases l with _ | ⟨d, l⟩
  · simp at h
  rcases l with _ | ⟨e, l⟩
  · exact ⟨a, b, c, d, rfl⟩
  · simp at h

theorem WF_shape {b : Board} (h : WF b) :
    ∃ r0 r1 r2 r3 : Row, b = [r0, r1, r2, r3] ∧
      r0.length = 4 ∧ r1.length = 4 ∧ r2.length = 4 ∧ r3.length = 4 := by
  obtain ⟨r0, r1, r2, r3, rfl⟩ := exists_len4 b h.1
  exact ⟨r0, r1, r2, r3, rfl,
    h.2 r0 (by simp), h.2 r1 (by simp), h.2 r2 (by simp), h.2 r3 (by simp)⟩

theorem transpose_cells (a00 a01 a02 a03 a10 a11 a12 a13
    a20 a21 a22 a23 a30 a31 a32 a33 : Cell) :
    transpose [[a00, a01, a02, a03], [a10, a11, a12, a13],
               [a20, a21, a22, a23], [a30, a31, a32, a33]] =
      [[a00, a10, a20, a30], [a01, a11, a21, a31],
       [a02, a12, a22, a32], [a03, a13, a23, a33]] := by
  simp [transpose, NUM_COLS, List.range_succ]

theorem WF_of_cells (a00 a01 a02 a03 a10 a11 a12 a13
    a20 a21 a22 a23 a30 a31 a32 a33 : Cell) :
    WF [[a00, a01, a02, a03], [a10, a11, a12, a13],
        [a20, a21, a22, a23], [a30, a31, a32, a33]] := by
  refine ⟨rfl, ?_⟩
  intro r hr
  simp only [List.mem_cons, List.not_mem_nil, or_false] at hr
  rcases hr with rfl | rfl | rfl | rfl <;> rfl

theorem WF_transpose {b : Board} (h : WF b) : WF (transpose b) := by
  obtain ⟨r0, r1, r2, r3, rfl, h0, h1, h2, h3⟩ := WF_shape h
  obtain ⟨a00, a01, a02, a03, rfl⟩ := exists_len4 r0 h0
  obtain ⟨a10, a11, a12, a13, rfl⟩ := exists_len4 r1 h1
  obtain ⟨a20, a21, a22, a23, rfl⟩ := exists_len4 r2 h2
  obtain ⟨a30, a31, a32, a33, rfl⟩ := exists_len4 r3 h3
  rw [transpose_cells]
  exact WF_of_cells _ _ _ _ _ _ _ _ _ _ _ _ _ _ _ _

theorem transpose_transpose {b : Board} (h : WF b) : transpose (transpose b) = b := by
  obtain ⟨r0, r1, r2, r3, rfl, h0, h1, h2, h3⟩ := WF_shape h
  obtain ⟨a00, a01, a02, a03, rfl⟩ := exists_len4 r0 h0
  obtain ⟨a10, a11, a12, a13, rfl⟩ := exists_len4 r1 h1
  obtain ⟨a20, a21, a22, a23, rfl⟩ := exists_len4 r2 h2
  obtain ⟨a30, a31, a32, a33, rfl⟩ := exists_len4 r3 h3
  rw [transpose_cells, transpose_cells]

theorem boardCount_transpose {b : Board} (h : WF b) :
    boardCount (transpose b) = boardCount b := by
  obtain ⟨r0, r1, r2, r3, rfl, h0, h1, h2, h3⟩ := WF_shape h
  obtain ⟨a00, a01, a02, a03, rfl⟩ := exists_len4 r0 h0
  obtain ⟨a10, a11, a12, a13, rfl⟩ := exists_len4 r1 h1
  obtain ⟨a20, a21, a22, a23, rfl⟩ := exists_len4 r2 h2
  obtain ⟨a30, a31, a32, a33, rfl⟩ := exists_len4 r3 h3
  rw [transpose_cells]
  simp only [boardCount, List.map_cons, List.map_nil, List.sum_cons,
    List.sum_nil, rowCount_cons, rowCount_nil]
  omega

theorem Full_transpose {b : Board} (h : WF b) (hf : Full b) :
    Full (transpose b) := by
  obtain ⟨r0, r1, r2, r3, rfl, h0, h1, h2, h3⟩ := WF_shape h
  obtain ⟨a00, a01, a02, a03, rfl⟩ := exists_len4 r0 h0
  obtain ⟨a10, a11, a12, a13, rfl⟩ := exists_len4 r1 h1
  obtain ⟨a20, a21, a22, a23, rfl⟩ := exists_len4 r2 h2
  obtain ⟨a30, a31, a32, a33, rfl⟩ := exists_len4 r3 h3
  rw [transpose_cells]
  simp only [Full, List.forall_mem_cons, List.forall_mem_nil, and_true] at hf ⊢
  tauto

theorem WF_moveUpB {b : Board} (h : WF b) : WF (moveUpB b) :=
  WF_transpose (WF_moveLeftB (WF_transpose h))

theorem WF_moveDownB {b : Board} (h : WF b) : WF (moveDownB b) :=
  WF_transpose (WF_moveRightB (WF_transpose h))

theorem boardCount_moveUpB_le {b : Board} (h : WF b) :
    boardCount (moveUpB b) ≤ boardCount b := by
  calc boardCount (moveUpB b)
      = boardCount (moveLeftB (transpose b)) :=
        boardCount_transpose (WF_moveLeftB (WF_transpose h))
    _ ≤ boardCount (transpose b) := boardCount_moveLeftB_le _
    _ = boardCount b := boardCount_transpose h

theorem boardCount_moveDownB_le {b : Board} (h : WF b) :
    boardCount (moveDownB b) ≤ boardCount b := by
  calc boardCount (moveDownB b)
      = boardCount (moveRightB (transpose b)) :=
        boardCount_transpose (WF_moveRightB (WF_transpose h))
    _ ≤ boardCount (transpose b) := boardCount_moveRightB_le _
    _ = boardCount b := boardCount_transpose h

/-! ### A changed move on a full board strictly loses a tile -/

theorem exists_row_ne {b : Board} {f : Row → Row} (h : b.map f ≠ b) :
    ∃ r ∈ b, f r ≠ r := by
  by_contra hc
  push_neg at hc
  exact h ((List.map_congr_left hc).trans (List.map_id b))

theorem stack_left_full {b : Board} (hf : Full b) : stack_left b = b := by
  have h : ∀ r ∈ b, stackRow r = r := fun r hr => stackRow_full r (hf r hr)
  rw [stack_left, List.map_congr_left h]
  simp

theorem boardCount_full {b : Board} (h : WF b) (hf : Full b) :
    boardCount b = 16 := by
  obtain ⟨r0, r1, r2, r3, rfl, h0, h1, h2, h3⟩ := WF_shape h
  simp only [boardCount, List.map_cons, List.map_nil, List.sum_cons, List.sum_nil]
  rw [rowCount_full r0 (hf r0 (by simp)), rowCount_full r1 (hf r1 (by simp)),
    rowCount_full r2 (hf r2 (by simp)), rowCount_full r3 (hf r3 (by simp)),
    h0, h1, h2, h3]
  rfl

theorem boardCount_moveLeftB_lt {b : Board} (h : WF b) (hf : Full b)
    (hne : moveLeftB b ≠ b) : boardCount (moveLeftB b) < boardCount b := by
  have hs : stack_left b = b := stack_left_full hf
  have hcne : b.map (fun r => (combineRow r).1) ≠ b := by
    intro heq
    apply hne
    show stack_left (combine_left (stack_left b)).1 = b
    rw [hs]
    show stack_left (b.map (fun r => (combineRow r).1)) = b
    rw [heq, hs]
  obtain ⟨r, hr, hrne⟩ := exists_row_ne hcne
  have hlt : rowCount (combineRow r).1 < rowCount r := by
    rcases Nat.lt_or_ge (rowCount (combineRow r).1) (rowCount r) with h1 | h1
    · exact h1
    · have heq := Nat.le_antisymm (rowCount_combineRow_le r) h1
      exact absurd (congrArg Prod.fst (combineRow_of_count_eq r heq)) hrne
  have hb : boardCount (combine_left b).1 < boardCount b := by
    simp only [boardCount, combine_left, List.map_map, Function.comp_def]
    exact List.sum_lt_sum _ _ (fun r2 _ => rowCount_combineRow_le r2) ⟨r, hr, hlt⟩
  calc boardCount (moveLeftB b)
      = boardCount (combine_left (stack_left b)).1 := boardCount_stack _
    _ = boardCount (combine_left b).1 := by rw [hs]
    _ < boardCount b := hb

theorem boardCount_moveRightB_lt {b : Board} (h : WF b) (hf : Full b)
    (hne : moveRightB b ≠ b) : boardCount (moveRightB b) < boardCount b := by
  have hrev : moveLeftB (reverse b) ≠ reverse b := by
    intro heq
    apply hne
    show reverse (moveLeftB (reverse b)) = b
    rw [heq, reverse_reverse_board]
  calc boardCount (moveRightB b)
      = boardCount (moveLeftB (reverse b)) := boardCount_reverse _
    _ < boardCount (reverse b) :=
        boardCount_moveLeftB_lt (WF_reverse h) (Full_reverse hf) hrev
    _ = boardCount b := boardCount_reverse b

theorem boardCount_moveUpB_lt {b : Board} (h : WF b) (hf : Full b)
    (hne : moveUpB b ≠ b) : boardCount (moveUpB b) < boardCount b := by
  have ht : moveLeftB (transpose b) ≠ transpose b := by
    intro heq
    apply hne
    show transpose (moveLeftB (transpose b)) = b
    rw [heq, transpose_transpose h]
  calc boardCount (moveUpB b)
      = boardCount (moveLeftB (transpose b)) :=
        boardCount_transpose (WF_moveLeftB (WF_transpose h))
    _ < boardCount (transpose b) :=
        boardCount_moveLeftB_lt (WF_transpose h) (Full_transpose h hf) ht
    _ = boardCount b := boardCount_transpose h

theorem boardCount_moveDownB_lt {b : Board} (h : WF b) (hf : Full b)
    (hne : moveDownB b ≠ b) : boardCount (moveDownB b) < boardCount b := by
  have ht : moveRightB (transpose b) ≠ transpose b := by
    intro heq
    apply hne
    show transpose (moveRightB (transpose b)) = b
    rw [heq, transpose_transpose h]
  calc boardCount (moveDownB b)
      = boardCount (moveRightB (transpose b)) :=
        boardCount_transpose (WF_moveRightB (WF_transpose h))
    _ < boardCount (transpose b) :=
        boardCount_moveRightB_lt (WF_transpose h) (Full_transpose h hf) ht
    _ = boardCount b := boardCount_transpose h

/-! ### An unchanged move earns no score -/

theorem rows_combine_eq {l : Board}
    (h : boardCount (combine_left l).1 = boardCount l) :
    ∀ r ∈ l, combineRow r = (r, 0) := by
  induction l with
  | nil => simp
  | cons r l ih =>
    have hle1 := rowCount_combineRow_le r
    have hle2 : boardCount (combine_left l).1 ≤ boardCount l :=
      boardCount_combine_le l
    simp only [boardCount, combine_left, List.map_map, Function.comp_def,
      List.map_cons, List.sum_cons] at h hle2
    have hhd : rowCount (combineRow r).1 = rowCount r := by omega
    intro r2 hr2
    rcases List.mem_cons.mp hr2 with rfl | hmem
    · exact combineRow_of_count_eq r2 hhd
    · refine ih ?_ r2 hmem
      simp only [boardCount, combine_left, List.map_map, Function.comp_def]
      omega

theorem scoreLeftB_eq_zero {b : Board} (hmove : moveLeftB b = b) :
    scoreLeftB b = 0 := by
  have hcnt : boardCount (combine_left (stack_left b)).1 =
      boardCount (stack_left b) := by
    have h1 := congrArg boardCount hmove
    rw [show boardCount (moveLeftB b) =
        boardCount (combine_left (stack_left b)).1 from boardCount_stack _,
      show boardCount b = boardCount (stack_left b) from
        (boardCount_stack b).symm] at h1
    exact h1
  have hrows := rows_combine_eq hcnt
  show (List.map (fun r => (combineRow r).2) (stack_left b)).sum = 0
  rw [List.map_congr_left
    (fun r hr => show (combineRow r).2 = (0 : Int) by rw [hrows r hr])]
  simp

theorem scoreRightB_eq_zero {b : Board} (hmove : moveRightB b = b) :
    scoreRightB b = 0 := by
  apply scoreLeftB_eq_zero
  have h2 := congrArg reverse hmove
  rw [show reverse (moveRightB b) = reverse (reverse (moveLeftB (reverse b)))
      from rfl, reverse_reverse_board] at h2
  exact h2

theorem scoreUpB_eq_zero {b : Board} (h : WF b) (hmove : moveUpB b = b) :
    scoreUpB b = 0 := by
  apply scoreLeftB_eq_zero
  have h2 := congrArg transpose hmove
  rw [show transpose (moveUpB b) =
      transpose (transpose (moveLeftB (transpose b))) from rfl,
    transpose_transpose (WF_moveLeftB (WF_transpose h))] at h2
  exact h2

theorem scoreDownB_eq_zero {b : Board} (h : WF b) (hmove : moveDownB b = b) :
    scoreDownB b = 0 := by
  apply scoreRightB_eq_zero (b := transpose b)
  have h2 := congrArg transpose hmove
  rw [show transpose (moveDownB b) =
      transpose (transpose (moveRightB (transpose b))) from rfl,
    transpose_transpose (WF_moveRightB (WF_transpose h))] at h2
  exact h2

/-! ### The composite of the four moves is the identity on a full board
exactly when every single move is -/

theorem lost_core {b : Board} (h : WF b) (hf : Full b)
    (hcomp : moveDownB (moveUpB (moveRightB (moveLeftB b))) = b) :
    moveLeftB b = b ∧ moveRightB b = b ∧ moveUpB b = b ∧ moveDownB b = b := by
  have hL : moveLeftB b = b := by
    by_contra hne
    have h1 := boardCount_moveLeftB_lt h hf hne
    have h2 := boardCount_moveRightB_le (moveLeftB b)
    have h3 := boardCount_moveUpB_le (WF_moveRightB (WF_moveLeftB h))
    have h4 := boardCount_moveDownB_le (WF_moveUpB (WF_moveRightB (WF_moveLeftB h)))
    have h5 := congrArg boardCount hcomp
    omega
  rw [hL] at hcomp
  have hR : moveRightB b = b := by
    by_contra hne
    have h1 := boardCount_moveRightB_lt h hf hne
    have h3 := boardCount_moveUpB_le (WF_moveRightB h)
    have h4 := boardCount_moveDownB_le (WF_moveUpB (WF_moveRightB h))
    have h5 := congrArg boardCount hcomp
    omega
  rw [hR] at hcomp
  have hU : moveUpB b = b := by
    by_contra hne
    have h1 := boardCount_moveUpB_lt h hf hne
    have h4 := boardCount_moveDownB_le (WF_moveUpB h)
    have h5 := congrArg boardCount hcomp
    omega
  rw [hU] at hcomp
  exact ⟨hL, hR, hU, hcomp⟩

/-! ### Characterizations of the stateful operations -/

theorem empty_filter_iff (b : Board) :
    (b.filter (fun row => decide ((none : Cell) ∈ row))).length = 0 ↔ Full b := by
  rw [List.length_eq_zero, List.filter_eq_nil_iff]
  constructor
  · intro h r hr c hc hcn
    subst hcn
    exact h r hr (by simpa using hc)
  · intro h r hr hmem
    exact h r hr none (by simpa using hmem) rfl

theorem seq_moves_eq (m : Model) :
    ((m.move_left.move_right).move_up).move_down =
      { m with
        game := moveDownB (moveUpB (moveRightB (moveLeftB m.game)))
        score := m.score + scoreLeftB m.game + scoreRightB (moveLeftB m.game) +
          scoreUpB (moveRightB (moveLeftB m.game)) +
          scoreDownB (moveUpB (moveRightB (moveLeftB m.game))) } :=
  rfl

theorem attempt_move_char (m : Model) (mv : String)
    (hmv : mv = "a" ∨ mv = "d" ∨ mv = "w" ∨ mv = "s") :
    m.attempt_move mv =
      (decide (m.game ≠ moveBoard mv m.game),
        if m.game ≠ moveBoard mv m.game then
          { m with
            game := moveBoard mv m.game
            score := m.score + moveScore mv m.game
            previous_state :=
              if m.previous_state.length ≠ MAX_UNDOS then
                m.previous_state ++ [(m.game, m.score)]
              else
                m.previous_state.tail ++ [(m.game, m.score)] }
        else
          { m with
            game := moveBoard mv m.game
            score := m.score + moveScore mv m.game }) := by
  by_cases hch : m.game = moveBoard mv m.game
  · rcases hmv with rfl | rfl | rfl | rfl <;>
    · simp only [moveBoard, moveScore, String.reduceEq, ite_true, ite_false,
        reduceIte] at hch ⊢
      simp [Model.attempt_move, move_left_eq, move_right_eq, move_up_eq,
        move_down_eq, hch.symm]
  · rcases hmv with rfl | rfl | rfl | rfl <;>
    · simp only [moveBoard, moveScore, String.reduceEq, ite_true, ite_false,
        reduceIte] at hch ⊢
      by_cases hlen : m.previous_state.length = MAX_UNDOS <;>
        simp [Model.attempt_move, move_left_eq, move_right_eq, move_up_eq,
          move_down_eq, hch, hlen]

theorem attempt_move_undos (m : Model) (mv : String) :
    (m.attempt_move mv).2.undos = m.undos := by
  simp only [Model.attempt_move]
  split_ifs <;> rfl

theorem attempt_move_game (m : Model) (mv : String)
    (hmv : mv = "a" ∨ mv = "d" ∨ mv = "w" ∨ mv = "s") :
    (m.attempt_move mv).2.game = moveBoard mv m.game := by
  rw [attempt_move_char m mv hmv]
  split <;> rfl

theorem add_tile_undos (gen : Board → (Nat × Nat) × Int) (m : Model) :
    (m.add_tile gen).undos = m.undos := by
  simp only [Model.add_tile]
  split_ifs <;> rfl

theorem add_tile_prev (gen : Board → (Nat × Nat) × Int) (m : Model) :
    (m.add_tile gen).previous_state = m.previous_state := by
  simp only [Model.add_tile]
  split_ifs <;> rfl

theorem has_lost_undos (m : Model) : (m.has_lost).2.undos = m.undos := by
  simp only [Model.has_lost]
  split_ifs <;> rfl

theorem has_lost_prev (m : Model) :
    (m.has_lost).2.previous_state = m.previous_state := by
  simp only [Model.has_lost]
  split_ifs <;> rfl

theorem use_undo_undos (m : Model) :
    m.use_undo.undos = m.undos ∨ m.use_undo.undos = m.undos - 1 := by
  simp only [Model.use_undo]
  split_ifs
  · exact Or.inl rfl
  · rcases h : m.previous_state.getLast? with _ | gs <;> simp [h]

/-! ### Claim theorems -/

/-- C1: `new_game` resets the board to all-empty, the score to 0 and the
undo budget to `MAX_UNDOS`, but — contrary to the claim — it leaves the undo
history untouched: from the concrete state `mHist` with one recorded
snapshot, the history after `new_game` still holds that snapshot instead of
being empty.  (The last conjunct shows the history never resets for any
state.) -/
theorem c1_new_game_keeps_history :
    (mHist.new_game).game =
        List.replicate NUM_ROWS (List.replicate NUM_COLS (none : Cell)) ∧
    (mHist.new_game).score = 0 ∧
    (mHist.new_game).undos = (MAX_UNDOS : Int) ∧
    (mHist.new_game).previous_state = [(altBoard, 5)] ∧
    mHist.previous_state ≠ [] ∧
    ∀ m : Model, (m.new_game).previous_state = m.previous_state :=
  ⟨rfl, rfl, rfl, rfl, by decide, fun _ => rfl⟩

/-- C6 counterexample: on the concrete state `mBig`, whose board holds a
4096 tile (a value ≥ 2048) and no 2048 tile, `has_won` returns `false`, so
"true iff some cell holds a value ≥ 2048" is false of the code. -/
theorem c6_cex :
    ¬ ((mBig.has_won = true) ↔ ∃ r ∈ mBig.game, ∃ c ∈ r, 2048 ≤ c.getD 0) := by
  decide

/-- C6 amended: `has_won` returns true iff some cell holds the value 2048
exactly (the code tests membership of 2048, not a ≥ comparison). -/
theorem c6_has_won_iff (m : Model) :
    m.has_won = true ↔ ∃ r ∈ m.game, some (2048 : Int) ∈ r := by
  constructor
  · intro h
    simp only [Model.has_won] at h
    split at h
    · next hpos =>
      rw [gt_iff_lt, List.length_map, List.length_pos] at hpos
      obtain ⟨r, hr⟩ := List.exists_mem_of_ne_nil _ hpos
      have h2 := List.mem_filter.mp hr
      exact ⟨r, h2.1, by simpa using h2.2⟩
    · exact absurd h (by simp)
  · rintro ⟨r, hr, hmem⟩
    have hf : r ∈ m.game.filter (fun row => decide (some (2048 : Int) ∈ row)) :=
      List.mem_filter.mpr ⟨hr, by simpa using hmem⟩
    have hpos : 0 < (m.game.filter
        (fun row => decide (some (2048 : Int) ∈ row))).length :=
      List.length_pos.mpr (List.ne_nil_of_mem hf)
    simp [Model.has_won, hpos]

/-- C7 counterexample: on the concrete state `mCorner`, the unrecognized
direction string "x" is not rejected with an invalid-argument condition;
`attempt_move` silently returns `changed = false` with the state
unchanged. -/
theorem c7_cex : mCorner.attempt_move "x" = (false, mCorner) := by decide

/-- C7 amended: for any direction outside the set {"a", "d", "w", "s"},
`attempt_move` performs no move and signals no error: it returns
`changed = false` and leaves the state unchanged. -/
theorem c7_unknown_direction_noop (m : Model) (mv : String)
    (h : mv ≠ "a" ∧ mv ≠ "d" ∧ mv ≠ "w" ∧ mv ≠ "s") :
    m.attempt_move mv = (false, m) := by
  obtain ⟨h1, h2, h3, h4⟩ := h
  simp [Model.attempt_move, h1, h2, h3, h4]

/-- C7 witness: the amended theorem applied at the concrete state
`mCorner` and direction "x". -/
theorem c7_witness :
    (("x" : String) ≠ "a" ∧ ("x" : String) ≠ "d" ∧ ("x" : String) ≠ "w" ∧
      ("x" : String) ≠ "s") ∧
    mCorner.attempt_move "x" = (false, mCorner) :=
  ⟨by decide, c7_unknown_direction_noop mCorner "x" (by decide)⟩

/-- C8: when the undo budget is zero or the history is empty, `use_undo`
changes nothing and signals no error; otherwise it pops the most recent
history entry, restores board and score from it, and decrements the
budget by one. -/
theorem c8_use_undo (m : Model) (hnn : 0 ≤ m.undos) :
    ((m.undos = 0 ∨ m.previous_state = []) → m.use_undo = m) ∧
    (∀ (h : List (Board × Int)) (g : Board) (s : Int),
      m.undos ≠ 0 → m.previous_state = h ++ [(g, s)] →
      m.use_undo = { game := g, previous_state := h, score := s,
                     undos := m.undos - 1 }) := by
  constructor
  · rintro (h0 | h0)
    · simp [Model.use_undo, h0]
    · simp [Model.use_undo, h0]
  · intro h g s hne hps
    have hcond : ¬(m.undos < 1 ∨ m.previous_state.length = 0) := by
      push_neg
      refine ⟨by omega, ?_⟩
      rw [hps]
      simp
    simp only [Model.use_undo]
    rw [if_neg hcond, hps]
    simp [List.getLast?_concat, List.dropLast_concat]

/-- C8 witness: the theorem applied at two concrete states, one with empty
history (no-op case) and one with a single history entry (pop case). -/
theorem c8_witness :
    mCorner.use_undo = mCorner ∧
    mHist.use_undo =
      { game := altBoard, previous_state := [], score := 5, undos := 0 } := by
  refine ⟨(c8_use_undo mCorner (by decide)).1 (Or.inr rfl), ?_⟩
  have h := (c8_use_undo mHist (by decide)).2 [] altBoard 5 (by decide) rfl
  simpa using h

/-- C10: the undo budget is only ever modified by `use_undo` (decrement by
one when an undo actually happens) and `new_game` (reset to `MAX_UNDOS`):
`attempt_move` (any direction string), `add_tile` (any tile generator) and
`has_lost` leave it unchanged, and the getters are pure field reads. -/
theorem c10_undo_budget_frame :
    (∀ (m : Model) (mv : String), (m.attempt_move mv).2.undos = m.undos) ∧
    (∀ (gen : Board → (Nat × Nat) × Int) (m : Model),
      (m.add_tile gen).undos = m.undos) ∧
    (∀ m : Model, (m.has_lost).2.undos = m.undos) ∧
    (∀ m : Model, m.get_score = m.score ∧ m.get_tiles = m.game ∧
      m.get_undos_remaining = m.undos) ∧
    (∀ m : Model, m.new_game.undos = (MAX_UNDOS : Int)) ∧
    (∀ m : Model,
      (m.undos < 1 ∨ m.previous_state.length = 0 → m.use_undo.undos = m.undos) ∧
      (¬(m.undos < 1 ∨ m.previous_state.length = 0) →
        m.use_undo.undos = m.undos - 1)) := by
  refine ⟨attempt_move_undos, add_tile_undos, has_lost_undos,
    fun m => ⟨rfl, rfl, rfl⟩, fun m => rfl, fun m => ⟨?_, ?_⟩⟩
  · intro h0
    rcases h0 with h0 | h0
    · simp [Model.use_undo, h0]
    · have he : m.previous_state = [] := List.length_eq_zero.mp h0
      simp [Model.use_undo, he]
  · intro h0
    push_neg at h0
    have hne : m.previous_state ≠ [] := by
      intro he
      exact h0.2 (by simp [he])
    rcases hg : m.previous_state.getLast? with _ | gs
    · rw [List.getLast?_eq_none_iff] at hg
      exact absurd hg hne
    · have hcond : ¬(m.undos < 1 ∨ m.previous_state.length = 0) := by
        push_neg
        exact ⟨h0.1, fun hz => hne (List.length_eq_zero.mp hz)⟩
      simp only [Model.use_undo]
      rw [if_neg hcond]
      simp [hg]

/-- C10 witness: the frame theorem applied at concrete states, including
the decrement branch of `use_undo`. -/
theorem c10_witness :
    (mCorner.attempt_move "a").2.undos = mCorner.undos ∧
    mHist.use_undo.undos = mHist.undos - 1 :=
  ⟨c10_undo_budget_frame.1 mCorner "a",
   (c10_undo_budget_frame.2.2.2.2.2 mHist).2 (by decide)⟩

/-! ### Refinement: the stack/combine/stack pipeline is the spec's
Row Reducer -/

theorem combineRow_replicate_none :
    ∀ k : Nat, combineRow (List.replicate k (none : Cell)) =
      (List.replicate k none, 0) := by
  intro k
  induction k with
  | zero => rfl
  | succ n ih =>
    cases n with
    | zero => rfl
    | succ n2 =>
      have h2 : List.replicate (n2 + 1) (none : Cell) =
          none :: List.replicate n2 none := rfl
      show (none :: (combineRow (none :: List.replicate n2 none)).1,
            (combineRow (none :: List.replicate n2 none)).2) =
          (List.replicate (n2 + 2) none, 0)
      rw [← h2, ih]
      rfl

theorem combineRow_pad (l : List Int) :
    ∀ k : Nat,
      (combineRow (l.map some ++ List.replicate k none)).1.filterMap id =
          (mergeScan l).1 ∧
      (combineRow (l.map some ++ List.replicate k none)).2 =
          (mergeScan l).2 := by
  induction l using mergeScan.induct with
  | case1 b rest ih =>
    intro k
    simp only [List.map_cons, List.cons_append]
    have hunf : combineRow (some b :: some b ::
        (rest.map some ++ List.replicate k none)) =
        (some (b + b) :: none ::
          (combineRow (rest.map some ++ List.replicate k none)).1,
         b + b + (combineRow (rest.map some ++ List.replicate k none)).2) := by
      simp [combineRow]
    rw [hunf]
    constructor
    · simp only [List.filterMap_cons, id_eq]
      rw [(ih k).1]
      simp [mergeScan]
    · rw [(ih k).2]
      simp [mergeScan]
  | case2 a b rest hab ih =>
    intro k
    simp only [List.map_cons, List.cons_append] at ih ⊢
    have hcond : (some b : Cell) ≠ some a := by
      simp only [ne_eq, Option.some.injEq]
      exact fun h => hab h.symm
    have hunf : combineRow (some a :: some b ::
        (rest.map some ++ List.replicate k none)) =
        (some a ::
          (combineRow (some b :: (rest.map some ++ List.replicate k none))).1,
         (combineRow (some b :: (rest.map some ++ List.replicate k none))).2) := by
      simp [combineRow, hcond]
    rw [hunf]
    constructor
    · simp only [List.filterMap_cons, id_eq]
      rw [(ih k).1]
      simp [mergeScan, hab]
    · rw [(ih k).2]
      simp [mergeScan, hab]
  | case3 l hl =>
    intro k
    rcases l with _ | ⟨x, _ | ⟨y, t⟩⟩
    · simp only [List.map_nil, List.nil_append]
      rw [combineRow_replicate_none k]
      exact ⟨filterMap_replicate_none k, rfl⟩
    · simp only [List.map_cons, List.map_nil, List.cons_append, List.nil_append]
      cases k with
      | zero => simp [combineRow, mergeScan]
      | succ k2 =>
        have h2 : List.replicate (k2 + 1) (none : Cell) =
            none :: List.replicate k2 none := rfl
        rw [h2]
        have hunf : combineRow (some x :: none :: List.replicate k2 none) =
            (some x :: (combineRow (none :: List.replicate k2 none)).1,
             (combineRow (none :: List.replicate k2 none)).2) := by
          simp [combineRow]
        rw [hunf, ← h2, combineRow_replicate_none]
        constructor
        · simp [List.filterMap_cons, filterMap_replicate_none, mergeScan]
        · simp [mergeScan]
    · exact (hl x y t rfl).elim

theorem moveRow_refines (r : Row) :
    stackRow (combineRow (stackRow r)).1 = (reduce_row_spec r).1 ∧
    (combineRow (stackRow r)).2 = (reduce_row_spec r).2 := by
  simp only [reduce_row_spec]
  rw [show stackRow r = (r.filterMap id).map some ++
      List.replicate (r.length - (r.filterMap id).length) none from rfl]
  have hpad := combineRow_pad (r.filterMap id) (r.length - (r.filterMap id).length)
  have hle := rowCount_le_length r
  simp only [rowCount] at hle
  have hlen : (combineRow ((r.filterMap id).map some ++
      List.replicate (r.length - (r.filterMap id).length) none)).1.length =
      r.length := by
    rw [length_combineRow]
    simp only [List.length_append, List.length_map, List.length_replicate]
    omega
  constructor
  · simp only [stackRow]
    rw [hpad.1, hlen]
  · exact hpad.2

theorem moveLeftB_refines (b : Board) :
    moveLeftB b = (reduce_spec b).1 ∧ scoreLeftB b = (reduce_spec b).2 := by
  constructor
  · show stack_left (combine_left (stack_left b)).1 =
        b.map fun r => (reduce_row_spec r).1
    simp only [stack_left, combine_left, List.map_map, Function.comp_def]
    exact List.map_congr_left fun r _ => (moveRow_refines r).1
  · show (List.map (fun r => (combineRow r).2) (stack_left b)).sum =
        (b.map fun r => (reduce_row_spec r).2).sum
    simp only [stack_left, List.map_map, Function.comp_def]
    exact congrArg List.sum (List.map_congr_left fun r _ => (moveRow_refines r).2)

/-- C9: the four directional move methods of the code equal, in resulting
board and in accumulated score delta, the spec's compositions of the single
left Row Reducer (`reduce_spec`, written from spec §4.1/§4.3) with the
reverse and transpose transforms: left is reduce; right is reverse, reduce,
reverse; up is transpose, reduce, transpose; down is transpose, reverse,
reduce, reverse, transpose. -/
theorem c9_moves_are_transform_compositions (m : Model) :
    (m.move_left.game = (reduce_spec m.game).1 ∧
     m.move_left.score = m.score + (reduce_spec m.game).2) ∧
    (m.move_right.game = reverse (reduce_spec (reverse m.game)).1 ∧
     m.move_right.score = m.score + (reduce_spec (reverse m.game)).2) ∧
    (m.move_up.game = transpose (reduce_spec (transpose m.game)).1 ∧
     m.move_up.score = m.score + (reduce_spec (transpose m.game)).2) ∧
    (m.move_down.game =
        transpose (reverse (reduce_spec (reverse (transpose m.game))).1) ∧
     m.move_down.score =
        m.score + (reduce_spec (reverse (transpose m.game))).2) := by
  refine ⟨⟨?_, ?_⟩, ⟨?_, ?_⟩, ⟨?_, ?_⟩, ⟨?_, ?_⟩⟩ <;>
    simp [move_left_eq, move_right_eq, move_up_eq, move_down_eq,
      moveRightB, moveUpB, moveDownB, scoreRightB, scoreUpB, scoreDownB,
      (moveLeftB_refines _).1, (moveLeftB_refines _).2]

/-! ### The last `n` entries of a list -/

theorem lastN_of_le {α : Type} {l : List α} {n : Nat} (h : l.length ≤ n) :
    lastN n l = l := by
  simp [lastN, Nat.sub_eq_zero_of_le h]

theorem lastN_cons {α : Type} (n : Nat) (a : α) (l : List α)
    (h : n ≤ l.length) : lastN n (a :: l) = lastN n l := by
  simp only [lastN, List.length_cons]
  rw [show l.length + 1 - n = (l.length - n) + 1 from by omega]
  rfl

theorem lastN_append_of_le {α : Type} (n : Nat) (a b : List α)
    (h : n ≤ b.length) : lastN n (a ++ b) = lastN n b := by
  induction a with
  | nil => rfl
  | cons x a ih =>
    rw [List.cons_append, lastN_cons n x (a ++ b)
      (by simp only [List.length_append]; omega), ih]

theorem lastN_lastN_append {α : Type} (n : Nat) (a b : List α) :
    lastN n (lastN n a ++ b) = lastN n (a ++ b) := by
  induction a with
  | nil => simp [lastN]
  | cons x a ih =>
    by_cases h : (x :: a).length ≤ n
    · rw [lastN_of_le h]
    · push_neg at h
      have hn : n ≤ a.length := by
        simp only [List.length_cons] at h
        omega
      rw [lastN_cons n x a hn, ih, List.cons_append,
        lastN_cons n x (a ++ b) (by simp only [List.length_append]; omega)]

theorem length_lastN {α : Type} (n : Nat) (l : List α) :
    (lastN n l).length = l.length - (l.length - n) := by
  simp [lastN]

/-! ### Unchanged moves earn no score, direction-indexed -/

theorem moveScore_eq_zero {b : Board} {mv : String} (hwf : WF b)
    (hmv : mv = "a" ∨ mv = "d" ∨ mv = "w" ∨ mv = "s")
    (hch : moveBoard mv b = b) : moveScore mv b = 0 := by
  rcases hmv with rfl | rfl | rfl | rfl <;>
    simp only [moveBoard, moveScore, String.reduceEq, reduceIte,
      ite_true, ite_false] at hch ⊢
  · exact scoreLeftB_eq_zero hch
  · exact scoreRightB_eq_zero hch
  · exact scoreUpB_eq_zero hwf hch
  · exact scoreDownB_eq_zero hwf hch

/-- C3: for every state and every direction among left/right/up/down,
`attempt_move` reports `changed = true` exactly when the committed board
differs from the pre-move board; the committed board is the moved board; on
a change the score delta is committed and exactly one history entry — the
pre-move (board, score) snapshot — is appended (evicting the oldest entry
when the history is at capacity, captured by keeping the last `MAX_UNDOS`
entries); on no change the state is left untouched. -/
theorem c3_attempt_move (m : Model) (mv : String)
    (hmv : mv = "a" ∨ mv = "d" ∨ mv = "w" ∨ mv = "s")
    (hwf : WF m.game) (hlen : m.previous_state.length ≤ MAX_UNDOS) :
    ((m.attempt_move mv).1 = true ↔ (m.attempt_move mv).2.game ≠ m.game) ∧
    (m.attempt_move mv).2.game = moveBoard mv m.game ∧
    ((m.attempt_move mv).1 = true →
      (m.attempt_move mv).2.score = m.score + moveScore mv m.game ∧
      (m.attempt_move mv).2.previous_state =
        lastN MAX_UNDOS (m.previous_state ++ [(m.game, m.score)])) ∧
    ((m.attempt_move mv).1 = false → (m.attempt_move mv).2 = m) := by
  rw [attempt_move_char m mv hmv]
  by_cases hch : m.game = moveBoard mv m.game
  · have hsc : moveScore mv m.game = 0 := moveScore_eq_zero hwf hmv hch.symm
    simp only [if_neg (show ¬m.game ≠ moveBoard mv m.game from not_not.mpr hch)]
    rw [hch.symm, hsc]
    cases m
    simp
  · have hne : m.game ≠ moveBoard mv m.game := hch
    simp only [if_pos hne]
    by_cases hl3 : m.previous_state.length = MAX_UNDOS
    · simp only [if_neg (not_not.mpr hl3)]
      refine ⟨by simpa using ne_comm, trivial, fun _ => ⟨trivial, ?_⟩,
        fun hfl => by simp [hne] at hfl⟩
      have hl3n : m.previous_state.length = 3 := hl3
      have h1 : lastN MAX_UNDOS (m.previous_state ++ [(m.game, m.score)]) =
          (m.previous_state ++ [(m.game, m.score)]).drop 1 := by
        simp only [lastN, List.length_append, List.length_cons,
          List.length_nil, hl3n]
        rfl
      rw [h1, List.drop_append_of_le_length (by omega), List.drop_one]
    · simp only [if_pos hl3]
      refine ⟨by simpa using ne_comm, trivial, fun _ => ⟨trivial, ?_⟩,
        fun hfl => by simp [hne] at hfl⟩
      have hlenn : m.previous_state.length ≤ 3 := hlen
      have hl3n : ¬m.previous_state.length = 3 := hl3
      rw [lastN_of_le]
      simp only [List.length_append, List.length_cons, List.length_nil]
      show _ ≤ 3
      omega

/-- C3 witness: the theorem applied at the concrete one-tile state
`mCorner` and direction "a". -/
theorem c3_witness :
    ((mCorner.attempt_move "a").1 = true ↔
      (mCorner.attempt_move "a").2.game ≠ mCorner.game) ∧
    (mCorner.attempt_move "a").2.game = moveBoard "a" mCorner.game ∧
    ((mCorner.attempt_move "a").1 = true →
      (mCorner.attempt_move "a").2.score =
        mCorner.score + moveScore "a" mCorner.game ∧
      (mCorner.attempt_move "a").2.previous_state =
        lastN MAX_UNDOS (mCorner.previous_state ++
          [(mCorner.game, mCorner.score)])) ∧
    ((mCorner.attempt_move "a").1 = false →
      (mCorner.attempt_move "a").2 = mCorner) :=
  c3_attempt_move mCorner "a" (Or.inl rfl) ⟨rfl, by decide⟩ (by decide)

/-- A successful pop: with at least one undo left and the history ending in
`(g, s)`, `use_undo` restores `g` and `s`, drops the last history entry and
decrements the budget. -/
theorem use_undo_pop (m : Model) (h : List (Board × Int)) (g : Board)
    (s : Int) (hu : 1 ≤ m.undos) (hps : m.previous_state = h ++ [(g, s)]) :
    m.use_undo = { game := g, previous_state := h, score := s,
                   undos := m.undos - 1 } := by
  have hcond : ¬(m.undos < 1 ∨ m.previous_state.length = 0) := by
    push_neg
    refine ⟨by omega, ?_⟩
    rw [hps]
    simp
  simp only [Model.use_undo]
  rw [if_neg hcond, hps]
  simp [List.getLast?_concat, List.dropLast_concat]

/-- C4: from a state with at least one undo available, an effective move
(`attempt_move` returning true) followed by `use_undo` restores exactly the
board and score from immediately before the move and decrements the undo
budget by exactly one; moreover no operation ever takes a non-negative
undo budget below zero. -/
theorem c4_undo_round_trip :
    (∀ (m : Model) (mv : String),
      (mv = "a" ∨ mv = "d" ∨ mv = "w" ∨ mv = "s") → 1 ≤ m.undos →
      (m.attempt_move mv).1 = true →
      (m.attempt_move mv).2.use_undo.game = m.game ∧
      (m.attempt_move mv).2.use_undo.score = m.score ∧
      (m.attempt_move mv).2.use_undo.undos = m.undos - 1) ∧
    (∀ m : Model, 0 ≤ m.undos →
      0 ≤ m.use_undo.undos ∧
      (∀ mv : String, 0 ≤ (m.attempt_move mv).2.undos) ∧
      0 ≤ m.new_game.undos ∧
      (∀ gen : Board → (Nat × Nat) × Int, 0 ≤ (m.add_tile gen).undos) ∧
      0 ≤ (m.has_lost).2.undos) := by
  constructor
  · intro m mv hmv hu heff
    have hne : m.game ≠ moveBoard mv m.game := by
      rw [attempt_move_char m mv hmv] at heff
      simpa using heff
    rw [attempt_move_char m mv hmv]
    simp only [if_pos hne]
    by_cases hl3 : m.previous_state.length = MAX_UNDOS
    · simp only [if_neg (not_not.mpr hl3)]
      rw [use_undo_pop
        { m with game := moveBoard mv m.game,
                 score := m.score + moveScore mv m.game,
                 previous_state :=
                   m.previous_state.tail ++ [(m.game, m.score)] }
        m.previous_state.tail m.game m.score hu rfl]
      exact ⟨rfl, rfl, rfl⟩
    · simp only [if_pos hl3]
      rw [use_undo_pop
        { m with game := moveBoard mv m.game,
                 score := m.score + moveScore mv m.game,
                 previous_state := m.previous_state ++ [(m.game, m.score)] }
        m.previous_state m.game m.score hu rfl]
      exact ⟨rfl, rfl, rfl⟩
  · intro m h0
    refine ⟨?_, ?_, ?_, ?_, ?_⟩
    · simp only [Model.use_undo]
      split_ifs with hcond
      · exact h0
      · push_neg at hcond
        rcases hg : m.previous_state.getLast? with _ | gs
        · simp only [hg]
          exact h0
        · simp only [hg]
          show 0 ≤ m.undos - 1
          omega
    · intro mv
      rw [attempt_move_undos]
      exact h0
    · show (0 : Int) ≤ (MAX_UNDOS : Nat)
      decide
    · intro gen
      rw [add_tile_undos]
      exact h0
    · rw [has_lost_undos]
      exact h0

/-- C4 witness: the round trip and the non-negativity applied at the
concrete one-tile state `mCorner` with the effective move "a". -/
theorem c4_witness :
    ((mCorner.attempt_move "a").2.use_undo.game = mCorner.game ∧
     (mCorner.attempt_move "a").2.use_undo.score = mCorner.score ∧
     (mCorner.attempt_move "a").2.use_undo.undos = mCorner.undos - 1) ∧
    0 ≤ mCorner.use_undo.undos :=
  ⟨c4_undo_round_trip.1 mCorner "a" (Or.inl rfl) (by decide) (by decide),
   (c4_undo_round_trip.2 mCorner (by decide)).1⟩

/-- C2: `has_lost` returns true exactly when the board has no empty cell
and none of the four directional moves, each applied to the current board,
would change it; and in both outcomes the call leaves the observable
committed state — board, score, history, and undo budget — unchanged. -/
theorem c2_has_lost (m : Model) (hwf : WF m.game) :
    ((m.has_lost).1 = true ↔
      (Full m.game ∧ moveLeftB m.game = m.game ∧ moveRightB m.game = m.game ∧
       moveUpB m.game = m.game ∧ moveDownB m.game = m.game)) ∧
    (m.has_lost).2.game = m.game ∧
    (m.has_lost).2.score = m.score ∧
    (m.has_lost).2.previous_state = m.previous_state ∧
    (m.has_lost).2.undos = m.undos := by
  have hguard := empty_filter_iff m.game
  by_cases hfull : Full m.game
  · have hlen : (m.game.filter
        (fun row => decide ((none : Cell) ∈ row))).length = 0 :=
      hguard.mpr hfull
    by_cases hcomp :
        moveDownB (moveUpB (moveRightB (moveLeftB m.game))) = m.game
    · obtain ⟨hL, hR, hU, hD⟩ := lost_core hwf hfull hcomp
      have hs1 : scoreLeftB m.game = 0 := scoreLeftB_eq_zero hL
      have hs2 : scoreRightB (moveLeftB m.game) = 0 := by
        rw [hL]
        exact scoreRightB_eq_zero hR
      have hs3 : scoreUpB (moveRightB (moveLeftB m.game)) = 0 := by
        rw [hL, hR]
        exact scoreUpB_eq_zero hwf hU
      have hs4 : scoreDownB (moveUpB (moveRightB (moveLeftB m.game))) = 0 := by
        rw [hL, hR, hU]
        exact scoreDownB_eq_zero hwf hD
      have hret : m.has_lost = (true,
          { m with
            game := moveDownB (moveUpB (moveRightB (moveLeftB m.game)))
            score := m.score + scoreLeftB m.game +
              scoreRightB (moveLeftB m.game) +
              scoreUpB (moveRightB (moveLeftB m.game)) +
              scoreDownB (moveUpB (moveRightB (moveLeftB m.game))) }) := by
        simp only [Model.has_lost]
        rw [if_pos hlen, seq_moves_eq m]
        exact if_pos hcomp
      rw [hret]
      refine ⟨?_, hcomp, ?_, rfl, rfl⟩
      · simp only [true_iff]
        exact ⟨hfull, hL, hR, hU, hD⟩
      · show m.score + scoreLeftB m.game + scoreRightB (moveLeftB m.game) +
          scoreUpB (moveRightB (moveLeftB m.game)) +
          scoreDownB (moveUpB (moveRightB (moveLeftB m.game))) = m.score
        rw [hs1, hs2, hs3, hs4]
        ring
    · have hret : m.has_lost =
          (false, Model.mk m.game m.previous_state m.score m.undos) := by
        simp only [Model.has_lost]
        rw [if_pos hlen, seq_moves_eq m]
        exact if_neg hcomp
      rw [hret]
      refine ⟨?_, rfl, rfl, rfl, rfl⟩
      simp only [Bool.false_eq_true, false_iff]
      intro hc
      apply hcomp
      rw [hc.2.1, hc.2.2.1, hc.2.2.2.1]
      exact hc.2.2.2.2
  · have hlenne : ¬(m.game.filter
        (fun row => decide ((none : Cell) ∈ row))).length = 0 :=
      fun h => hfull (hguard.mp h)
    have hret : m.has_lost = (false, m) := by
      simp only [Model.has_lost]
      rw [if_neg hlenne]
    rw [hret]
    refine ⟨?_, rfl, rfl, rfl, rfl⟩
    simp only [Bool.false_eq_true, false_iff]
    intro hc
    exact hfull hc.1

/-- C2 witness: the theorem applied at the concrete stuck full-board state
`mAlt`, whose alternating 2/4 tiles admit no merge. -/
theorem c2_witness :
    ((mAlt.has_lost).1 = true ↔
      (Full mAlt.game ∧ moveLeftB mAlt.game = mAlt.game ∧
       moveRightB mAlt.game = mAlt.game ∧ moveUpB mAlt.game = mAlt.game ∧
       moveDownB mAlt.game = mAlt.game)) ∧
    (mAlt.has_lost).2.game = mAlt.game ∧
    (mAlt.has_lost).2.score = mAlt.score ∧
    (mAlt.has_lost).2.previous_state = mAlt.previous_state ∧
    (mAlt.has_lost).2.undos = mAlt.undos :=
  c2_has_lost mAlt ⟨rfl, by decide⟩

/-! ### History machinery for move sequences -/

theorem attempt_move_other (m : Model) (mv : String)
    (h1 : mv ≠ "a") (h2 : mv ≠ "d") (h3 : mv ≠ "w") (h4 : mv ≠ "s") :
    m.attempt_move mv = (false, m) := by
  simp [Model.attempt_move, h1, h2, h3, h4]

theorem attempt_move_hist_len (m : Model) (mv : String)
    (hlen : m.previous_state.length ≤ MAX_UNDOS) :
    (m.attempt_move mv).2.previous_state.length ≤ MAX_UNDOS := by
  by_cases hmv : mv = "a" ∨ mv = "d" ∨ mv = "w" ∨ mv = "s"
  · rw [attempt_move_char m mv hmv]
    have hlenn : m.previous_state.length ≤ 3 := hlen
    split_ifs with hch hl3
    · show (m.previous_state ++ [(m.game, m.score)]).length ≤ MAX_UNDOS
      simp only [List.length_append, List.length_cons, List.length_nil]
      have hne3 : m.previous_state.length ≠ 3 := hl3
      show _ ≤ 3
      omega
    · show (m.previous_state.tail ++ [(m.game, m.score)]).length ≤ MAX_UNDOS
      simp only [List.length_append, List.length_tail, List.length_cons,
        List.length_nil]
      show _ ≤ 3
      omega
    · exact hlen
  · push_neg at hmv
    rw [attempt_move_other m mv hmv.1 hmv.2.1 hmv.2.2.1 hmv.2.2.2]
    exact hlen

theorem use_undo_hist_len (m : Model)
    (hlen : m.previous_state.length ≤ MAX_UNDOS) :
    m.use_undo.previous_state.length ≤ MAX_UNDOS := by
  simp only [Model.use_undo]
  split_ifs
  · exact hlen
  · rcases hg : m.previous_state.getLast? with _ | gs <;>
      simp_all [MAX_UNDOS, List.length_dropLast] <;> omega

theorem attempt_move_push (m : Model) (mv : String)
    (hmv : mv = "a" ∨ mv = "d" ∨ mv = "w" ∨ mv = "s")
    (hlen : m.previous_state.length ≤ MAX_UNDOS)
    (heff : (m.attempt_move mv).1 = true) :
    (m.attempt_move mv).2.previous_state =
      lastN MAX_UNDOS (m.previous_state ++ [(m.game, m.score)]) := by
  have hne : m.game ≠ moveBoard mv m.game := by
    rw [attempt_move_char m mv hmv] at heff
    simpa using heff
  rw [attempt_move_char m mv hmv]
  simp only [if_pos hne]
  by_cases hl3 : m.previous_state.length = MAX_UNDOS
  · simp only [if_neg (not_not.mpr hl3)]
    show m.previous_state.tail ++ [(m.game, m.score)] = _
    have hl3n : m.previous_state.length = 3 := hl3
    have h1 : lastN MAX_UNDOS (m.previous_state ++ [(m.game, m.score)]) =
        (m.previous_state ++ [(m.game, m.score)]).drop 1 := by
      simp only [lastN, List.length_append, List.length_cons,
        List.length_nil, hl3n]
      rfl
    rw [h1, List.drop_append_of_le_length (by omega), List.drop_one]
  · simp only [if_pos hl3]
    show m.previous_state ++ [(m.game, m.score)] = _
    have hlenn : m.previous_state.length ≤ 3 := hlen
    have hl3n : ¬m.previous_state.length = 3 := hl3
    rw [lastN_of_le]
    simp only [List.length_append, List.length_cons, List.length_nil]
    show _ ≤ 3
    omega

theorem applyMoves_append (a b : List String) :
    ∀ m : Model, applyMoves m (a ++ b) = applyMoves (applyMoves m a) b := by
  induction a with
  | nil => intro m; rfl
  | cons mv a ih => intro m; exact ih (m.attempt_move mv).2

theorem snaps_append (a b : List String) :
    ∀ m : Model, snaps m (a ++ b) = snaps m a ++ snaps (applyMoves m a) b := by
  induction a with
  | nil => intro m; rfl
  | cons mv a ih =>
    intro m
    show (m.game, m.score) :: snaps (m.attempt_move mv).2 (a ++ b) = _
    rw [ih (m.attempt_move mv).2]
    rfl

theorem length_snaps (ms : List String) :
    ∀ m : Model, (snaps m ms).length = ms.length := by
  induction ms with
  | nil => intro m; rfl
  | cons mv ms ih =>
    intro m
    show ((m.game, m.score) :: snaps (m.attempt_move mv).2 ms).length = _
    simp [ih (m.attempt_move mv).2]

theorem applyMoves_undos (ms : List String) :
    ∀ m : Model, (applyMoves m ms).undos = m.undos := by
  induction ms with
  | nil => intro m; rfl
  | cons mv ms ih =>
    intro m
    show (applyMoves (m.attempt_move mv).2 ms).undos = m.undos
    rw [ih (m.attempt_move mv).2, attempt_move_undos]

theorem allEffective_append (a b : List String) :
    ∀ m : Model, allEffective m (a ++ b) =
      (allEffective m a && allEffective (applyMoves m a) b) := by
  induction a with
  | nil => intro m; rfl
  | cons mv a ih =>
    intro m
    show ((m.attempt_move mv).1 && allEffective (m.attempt_move mv).2 (a ++ b)) = _
    rw [ih (m.attempt_move mv).2]
    show _ = ((m.attempt_move mv).1 && allEffective (m.attempt_move mv).2 a &&
      allEffective (applyMoves (m.attempt_move mv).2 a) b)
    rw [Bool.and_assoc]

theorem applyMoves_hist (ms : List String) :
    ∀ m : Model,
      (∀ mv ∈ ms, mv = "a" ∨ mv = "d" ∨ mv = "w" ∨ mv = "s") →
      allEffective m ms = true →
      m.previous_state.length ≤ MAX_UNDOS →
      (applyMoves m ms).previous_state =
        lastN MAX_UNDOS (m.previous_state ++ snaps m ms) := by
  induction ms with
  | nil =>
    intro m _ _ hlen
    show m.previous_state = lastN MAX_UNDOS (m.previous_state ++ [])
    rw [List.append_nil, lastN_of_le hlen]
  | cons mv ms ih =>
    intro m hmvs heff hlen
    simp only [allEffective, Bool.and_eq_true] at heff
    have hmv := hmvs mv (by simp)
    have hstep := attempt_move_push m mv hmv hlen heff.1
    have hlen2 : (m.attempt_move mv).2.previous_state.length ≤ MAX_UNDOS :=
      attempt_move_hist_len m mv hlen
    show (applyMoves (m.attempt_move mv).2 ms).previous_state = _
    rw [ih _ (fun v hv => hmvs v (by simp [hv])) heff.2 hlen2, hstep,
      lastN_lastN_append]
    show lastN MAX_UNDOS ((m.previous_state ++ [(m.game, m.score)]) ++
      snaps (m.attempt_move mv).2 ms) = _
    rw [List.append_assoc]
    rfl

theorem exists_len3 {α : Type} :
    ∀ l : List α, l.length = 3 → ∃ a b c, l = [a, b, c] := by
  intro l h
  rcases l with _ | ⟨a, l⟩
  · simp at h
  rcases l with _ | ⟨b, l⟩
  · simp at h
  rcases l with _ | ⟨c, l⟩
  · simp at h
  rcases l with _ | ⟨d, l⟩
  · exact ⟨a, b, c, rfl⟩
  · simp at h

/-- C5: the undo history never exceeds `MAX_UNDOS` entries (preserved by
`attempt_move` for any direction string and by `use_undo`), and after a run
of more than `MAX_UNDOS` effective moves, undoing `MAX_UNDOS` times lands
exactly on the board and score from `MAX_UNDOS` moves ago — not earlier:
the oldest snapshots were evicted. -/
theorem c5_history_bound :
    (∀ (m : Model) (mv : String), m.previous_state.length ≤ MAX_UNDOS →
      (m.attempt_move mv).2.previous_state.length ≤ MAX_UNDOS) ∧
    (∀ m : Model, m.previous_state.length ≤ MAX_UNDOS →
      m.use_undo.previous_state.length ≤ MAX_UNDOS) ∧
    (∀ (m : Model) (ms : List String),
      (∀ mv ∈ ms, mv = "a" ∨ mv = "d" ∨ mv = "w" ∨ mv = "s") →
      allEffective m ms = true →
      m.previous_state.length ≤ MAX_UNDOS →
      (MAX_UNDOS : Int) ≤ m.undos →
      MAX_UNDOS < ms.length →
      (applyMoves m ms).use_undo.use_undo.use_undo.game =
        (applyMoves m (ms.take (ms.length - MAX_UNDOS))).game ∧
      (applyMoves m ms).use_undo.use_undo.use_undo.score =
        (applyMoves m (ms.take (ms.length - MAX_UNDOS))).score) := by
  refine ⟨attempt_move_hist_len, use_undo_hist_len, ?_⟩
  intro m ms hmvs heff hlen hu hk
  have hu3 : (3 : Int) ≤ m.undos := hu
  have hk3 : 3 < ms.length := hk
  set a := ms.take (ms.length - MAX_UNDOS) with ha
  set b := ms.drop (ms.length - MAX_UNDOS) with hb0
  have hab : ms = a ++ b := (List.take_append_drop _ ms).symm
  have hbl : b.length = 3 := by
    rw [hb0, List.length_drop]
    show ms.length - (ms.length - 3) = 3
    omega
  set t := applyMoves m a with ht
  have h1 : applyMoves m ms = applyMoves t b := by
    rw [ht]
    nth_rewrite 1 [hab]
    rw [applyMoves_append]
  have h2 : snaps m ms = snaps m a ++ snaps t b := by
    rw [ht]
    nth_rewrite 1 [hab]
    rw [snaps_append]
  have hhist := applyMoves_hist ms m hmvs heff hlen
  have hlast : (applyMoves m ms).previous_state = snaps t b := by
    rw [hhist, h2, ← List.append_assoc,
      lastN_append_of_le MAX_UNDOS _ _
        (by rw [length_snaps]; show 3 ≤ b.length; omega),
      lastN_of_le (by rw [length_snaps]; show b.length ≤ 3; omega)]
  obtain ⟨x, y, z, hxyz⟩ := exists_len3 b hbl
  set t1 := (t.attempt_move x).2 with ht1
  set t2 := (t1.attempt_move y).2 with ht2
  have hsnaps : snaps t b =
      [(t.game, t.score), (t1.game, t1.score), (t2.game, t2.score)] := by
    rw [hxyz]
    rfl
  have hundos : (applyMoves m ms).undos = m.undos := applyMoves_undos ms m
  have hf1 := use_undo_pop (applyMoves m ms)
    [(t.game, t.score), (t1.game, t1.score)] t2.game t2.score
    (by rw [hundos]; omega) (by rw [hlast, hsnaps]; rfl)
  rw [hf1]
  have hf2 := use_undo_pop
    { game := t2.game,
      previous_state := [(t.game, t.score), (t1.game, t1.score)],
      score := t2.score, undos := (applyMoves m ms).undos - 1 }
    [(t.game, t.score)] t1.game t1.score
    (by show (1 : Int) ≤ (applyMoves m ms).undos - 1; rw [hundos]; omega) rfl
  rw [hf2]
  have hf3 := use_undo_pop
    { game := t1.game, previous_state := [(t.game, t.score)],
      score := t1.score, undos := (applyMoves m ms).undos - 1 - 1 }
    [] t.game t.score
    (by show (1 : Int) ≤ (applyMoves m ms).undos - 1 - 1
        rw [hundos]
        omega) rfl
  rw [hf3]
  exact ⟨rfl, rfl⟩

/-- C5 witness: the theorem applied at the concrete one-tile state
`mCorner` with the four effective moves "a", "d", "a", "d". -/
theorem c5_witness :
    (applyMoves mCorner ["a", "d", "a", "d"]).use_undo.use_undo.use_undo.game =
      (applyMoves mCorner (["a", "d", "a", "d"].take
        (["a", "d", "a", "d"].length - MAX_UNDOS))).game ∧
    (applyMoves mCorner ["a", "d", "a", "d"]).use_undo.use_undo.use_undo.score =
      (applyMoves mCorner (["a", "d", "a", "d"].take
        (["a", "d", "a", "d"].length - MAX_UNDOS))).score :=
  c5_history_bound.2.2 mCorner ["a", "d", "a", "d"]
    (by decide) (by decide) (by decide) (by decide) (by decide)

end A3
